import Mathlib

/-!
# Verification of the Portfolio_App core pipeline

Shallow embedding of the signal / portfolio / backtest / statistics pipeline
(`src/portfolio.py`, `src/signals.py`, `src/utils.py`) and of the monthly
Fama-French alignment routine (`app.py`, `load_or_build_merged` and the
regression guard).

Conventions used throughout:
* pandas floating-point cells are modelled exactly: `ℚ` (or `ℝ` where a square
  root or real power occurs) for ordinary values, and `Option` with `none`
  playing the role of IEEE NaN wherever pandas produces or consumes NaN.
* A DataFrame is a list of rows or a list of columns, as noted at each
  definition; weight and price frames are assumed to share one date index and
  one ticker set, which is how the application calls them.
-/

namespace PortfolioApp

/-- A float-or-NaN cell: `none` models IEEE NaN as produced by pandas. -/
abbrev Cell := Option ℚ

/-! ## src/portfolio.py : weight_long_only

`alpha.unstack()` turns the MultiIndex alpha series into one row per date;
a row is a list of cells, `none` standing for a (date, ticker) pair that is
absent from the series. -/

/-- The valid (non-NaN) entries of one cross-sectional row. -/
def validVals (xs : List Cell) : List ℚ := xs.filterMap id

/-- pandas `rank(axis=1, pct=True, ascending=False)` (method `average`) of the
value `v` inside the row `xs`: the descending average rank of `v`, divided by
the number of valid entries. -/
def pctRankDesc (xs : List Cell) (v : ℚ) : ℚ :=
  (((validVals xs).filter (fun x => v < x)).length
      + (((validVals xs).filter (fun x => x = v)).length : ℚ) / 2
      + 1 / 2) / ((validVals xs).length : ℚ)

/-- One entry of `long_mask = ranks > (1 - top_cut)`; a NaN rank compares
`False`. -/
def longMaskEntry (top_cut : ℚ) (xs : List Cell) : Cell → Bool
  | none => false
  | some v => decide (1 - top_cut < pctRankDesc xs v)

/-- One date of `weight_long_only`: the boolean mask divided by the row count
of `True` entries, with `fillna(0)` turning the empty-selection rows into
zeros. -/
def weightRow (top_cut : ℚ) (xs : List Cell) : List ℚ :=
  let mask := xs.map (longMaskEntry top_cut xs)
  mask.map (fun b => if b then 1 / ((mask.count true : ℕ) : ℚ) else 0)

/-- `weight_long_only(alpha, top_cut)` on the unstacked alpha table: each date
is ranked and thresholded independently. -/
def weight_long_only (alpha : List (ℕ × List Cell)) (top_cut : ℚ) :
    List (ℕ × List ℚ) :=
  alpha.map (fun r => (r.1, weightRow top_cut r.2))

/-- Sum of the positive entries of a mask scaled by a positive constant. -/
lemma sum_filter_pos_map_mask (c : ℚ) (hc : 0 < c) (mask : List Bool) :
    ((mask.map fun b => if b then c else 0).filter fun v => 0 < v).sum
      = (mask.count true : ℚ) * c := by
  induction mask with
  | nil => simp
  | cons b t ih =>
      cases b with
      | false =>
          simp only [List.map_cons, List.filter_cons, if_neg (lt_irrefl (0 : ℚ))]
          simpa [List.count_cons] using ih
      | true =>
          simp [List.filter_cons, hc, List.count_cons, ih]
          ring

end PortfolioApp

namespace PortfolioApp

/-- Claim C1 (status: code_bug), the code evaluated at the claim's own
scenario: a single date with alpha scores `[5, 4, 3, 2, 1]` for the five
assets `A..E` and `top_cut = 0.2`.  Because `rank(ascending=False)` gives the
*highest* alpha the *smallest* percentile and the mask keeps
`ranks > 1 - top_cut`, the produced weight row is `[0, 0, 0, 0, 1]`: the whole
weight goes to asset `E`, the one with the LOWEST alpha, while the claim (and
the names `top_cut` / `long_mask`) demand asset `A`. -/
theorem C1_weight_goes_to_lowest_alpha :
    weight_long_only [(0, [some 5, some 4, some 3, some 2, some 1])] (1 / 5)
      = [(0, [0, 0, 0, 0, 1])] := by
  have hv : validVals [some (5 : ℚ), some 4, some 3, some 2, some 1]
      = [5, 4, 3, 2, 1] := by simp [validVals]
  have h5 : longMaskEntry (1 / 5) [some 5, some 4, some 3, some 2, some 1]
      (some 5) = false := by
    simp only [longMaskEntry, pctRankDesc, hv]
    norm_num [List.filter]
  have h4 : longMaskEntry (1 / 5) [some 5, some 4, some 3, some 2, some 1]
      (some 4) = false := by
    simp only [longMaskEntry, pctRankDesc, hv]
    norm_num [List.filter]
  have h3 : longMaskEntry (1 / 5) [some 5, some 4, some 3, some 2, some 1]
      (some 3) = false := by
    simp only [longMaskEntry, pctRankDesc, hv]
    norm_num [List.filter]
  have h2 : longMaskEntry (1 / 5) [some 5, some 4, some 3, some 2, some 1]
      (some 2) = false := by
    simp only [longMaskEntry, pctRankDesc, hv]
    norm_num [List.filter]
  have h1 : longMaskEntry (1 / 5) [some 5, some 4, some 3, some 2, some 1]
      (some 1) = true := by
    simp only [longMaskEntry, pctRankDesc, hv]
    norm_num [List.filter]
  simp only [weight_long_only, weightRow, List.map_cons, List.map_nil,
    h1, h2, h3, h4, h5]
  norm_num [List.count, List.countP, List.countP.go]

/-- Claim C5: every date row of a `weight_long_only` output is either all
zero, or has every weight in `[0, 1]` with the positive weights summing to
exactly 1. -/
theorem C5_weight_row_normalization (alpha : List (ℕ × List Cell))
    (top_cut : ℚ) (r : ℕ × List ℚ) (hr : r ∈ weight_long_only alpha top_cut) :
    (∀ v ∈ r.2, v = 0) ∨
      ((∀ v ∈ r.2, 0 ≤ v ∧ v ≤ 1)
        ∧ (r.2.filter fun v => 0 < v).sum = 1) := by
  rcases List.mem_map.mp hr with ⟨a, _, rfl⟩
  simp only [weightRow]
  set mask := a.2.map (longMaskEntry top_cut a.2) with hmask
  by_cases hk : mask.count true = 0
  · left
    intro v hv
    rcases List.mem_map.mp hv with ⟨b, hb, rfl⟩
    have hbf : b = false := by
      cases b
      · rfl
      · exact absurd (List.count_pos_iff.mpr hb) (by omega)
    simp [hbf]
  · right
    have hk1 : 1 ≤ mask.count true := Nat.one_le_iff_ne_zero.mpr hk
    have hkq : (0 : ℚ) < (mask.count true : ℕ) := by exact_mod_cast hk1
    refine ⟨?_, ?_⟩
    · intro v hv
      rcases List.mem_map.mp hv with ⟨b, _, rfl⟩
      cases b
      · simp
      · simp only [if_pos]
        constructor
        · positivity
        · rw [div_le_one hkq]
          exact_mod_cast hk1
    · rw [sum_filter_pos_map_mask _ (by positivity)]
      field_simp

/-- Witness for C5 at a concrete one-asset, one-date table. -/
theorem C5_weight_row_normalization_witness :
    ((0 : ℕ), [(1 : ℚ)]) ∈ weight_long_only [(0, [some 1])] (1 / 2)
      ∧ ((∀ v ∈ [(1 : ℚ)], v = 0)
          ∨ ((∀ v ∈ [(1 : ℚ)], 0 ≤ v ∧ v ≤ 1)
              ∧ (([(1 : ℚ)].filter fun v => 0 < v).sum = 1)) ) := by
  have hmem : ((0 : ℕ), [(1 : ℚ)]) ∈ weight_long_only [(0, [some 1])] (1 / 2) := by
    have hv : validVals [some (1 : ℚ)] = [1] := by simp [validVals]
    have h1 : longMaskEntry (1 / 2) [some 1] (some 1) = true := by
      simp only [longMaskEntry, pctRankDesc, hv]
      norm_num [List.filter]
    have : weight_long_only [(0, [some 1])] (1 / 2) = [(0, [1])] := by
      simp only [weight_long_only, weightRow, List.map_cons, List.map_nil, h1]
      norm_num [List.count, List.countP, List.countP.go]
    rw [this]
    exact List.mem_singleton.mpr rfl
  exact ⟨hmem,
    C5_weight_row_normalization [(0, [some 1])] (1 / 2) (0, [1]) hmem⟩

/-! ## src/portfolio.py : backtest

`backtest(weights, prices)` computes
`(weights.shift() * prices.pct_change().shift(-1)).sum(axis=1)`.
Frames are modelled column-wise: one list of cells per asset, all on one
shared date index of length `T` (the application always calls the backtester
with weight and price frames over the same dates and tickers). -/

/-- pandas `pct_change()` on one price column: a leading NaN followed by the
successive simple returns. -/
def pct_change (ps : List ℚ) : List Cell :=
  match ps with
  | [] => []
  | _ :: _ =>
      none :: List.zipWith (fun prev cur => some (cur / prev - 1)) ps ps.tail

/-- pandas `shift(-1)`: drop the first entry, append a trailing NaN. -/
def shiftBack (xs : List Cell) : List Cell :=
  match xs with
  | [] => []
  | _ :: t => t ++ [none]

/-- pandas `shift()` (lag by one period): prepend a NaN, drop the last entry. -/
def shiftFwd (xs : List Cell) : List Cell :=
  match xs with
  | [] => []
  | x :: t => none :: (x :: t).dropLast

/-- Elementwise float product; NaN propagates. -/
def cellMul (a b : Cell) : Cell := a.bind fun x => b.map fun y => x * y

/-- One asset column of `weights.shift() * prices.pct_change().shift(-1)`. -/
def btCol (wc pc : List ℚ) : List Cell :=
  List.zipWith cellMul (shiftFwd (wc.map some)) (shiftBack (pct_change pc))

/-- pandas `.sum(axis=1)` at date `t`: NaN entries are skipped, so an all-NaN
row sums to `0`. -/
def nansumAt (cols : List (List Cell)) (t : ℕ) : ℚ :=
  ((cols.map fun c => c.getD t none).filterMap id).sum

/-- `backtest(weights, prices)`: the portfolio return series over the shared
date index `0, ..., T-1`. -/
def backtest (T : ℕ) (wcols pcols : List (List ℚ)) : List Cell :=
  (List.range T).map fun t =>
    some (nansumAt (List.zipWith btCol wcols pcols) t)

lemma cellMul_none_left (b : Cell) : cellMul none b = none := rfl

lemma cellMul_none_right (a : Cell) : cellMul a none = none := by
  cases a <;> rfl

/-- Index access through a `zipWith cellMul`, with NaN as the out-of-range
default on both sides. -/
lemma getD_zipWith_cellMul :
    ∀ (l1 l2 : List Cell) (n : ℕ),
      (List.zipWith cellMul l1 l2).getD n none
        = cellMul (l1.getD n none) (l2.getD n none) := by
  intro l1
  induction l1 with
  | nil => intro l2 n; simp [cellMul_none_left]
  | cons a t ih =>
      intro l2 n
      cases l2 with
      | nil => simp [cellMul_none_right]
      | cons b s =>
          cases n with
          | zero => simp [List.getD]
          | succ m => simpa [List.getD] using ih s m

lemma shiftBack_pct_change_cons (p q : ℚ) (r : List ℚ) :
    shiftBack (pct_change (p :: q :: r))
      = some (q / p - 1) :: shiftBack (pct_change (q :: r)) := by
  simp [pct_change, shiftBack]

/-- The lagged forward-return column at date `t` is
`p (t+1) / p t - 1` when both prices exist, NaN otherwise. -/
lemma fwdRet_getD :
    ∀ (pc : List ℚ) (t : ℕ),
      (shiftBack (pct_change pc)).getD t none
        = if t + 1 < pc.length
            then some (pc.getD (t + 1) 0 / pc.getD t 0 - 1) else none := by
  intro pc
  induction pc with
  | nil => intro t; simp [pct_change, shiftBack]
  | cons p rest ih =>
      intro t
      cases rest with
      | nil => cases t <;> simp [pct_change, shiftBack, List.getD]
      | cons q r =>
          rw [shiftBack_pct_change_cons]
          cases t with
          | zero => simp [List.getD]
          | succ s =>
              rw [List.getD_cons_succ, ih s]
              by_cases h : s + 1 < (q :: r).length
              · rw [if_pos h, if_pos (by simpa using Nat.succ_lt_succ h)]
                simp [List.getD]
              · rw [if_neg h, if_neg (by simpa using fun hh => h (Nat.lt_of_succ_lt_succ hh))]

lemma dropLast_map_some_getD :
    ∀ (l : List ℚ) (s : ℕ),
      ((l.map some).dropLast).getD s none
        = if s + 1 < l.length then some (l.getD s 0) else none := by
  intro l
  induction l with
  | nil => intro s; simp
  | cons x rest ih =>
      intro s
      cases rest with
      | nil => simp
      | cons y r =>
          cases s with
          | zero => simp [List.getD]
          | succ m =>
              have hd : ((x :: y :: r).map some).dropLast
                  = some x :: ((y :: r).map some).dropLast := by
                simp [List.dropLast]
              rw [hd, List.getD_cons_succ, ih m]
              by_cases h : m + 1 < (y :: r).length
              · rw [if_pos h, if_pos (by simpa using Nat.succ_lt_succ h)]
                simp [List.getD]
              · rw [if_neg h, if_neg (by simpa using fun hh => h (Nat.lt_of_succ_lt_succ hh))]

/-- The lagged weight column at date `t` is the weight of date `t - 1`,
NaN at the leading date and beyond the index. -/
lemma shiftFwd_map_getD (wc : List ℚ) (t : ℕ) :
    (shiftFwd (wc.map some)).getD t none
      = if 0 < t ∧ t < wc.length then some (wc.getD (t - 1) 0) else none := by
  cases wc with
  | nil => simp [shiftFwd]
  | cons w rest =>
      have hs : shiftFwd ((w :: rest).map some)
          = none :: ((w :: rest).map some).dropLast := by
        simp [shiftFwd]
      rw [hs]
      cases t with
      | zero => simp
      | succ s =>
          rw [List.getD_cons_succ, dropLast_map_some_getD (w :: rest) s]
          by_cases h : s + 1 < (w :: rest).length
          · rw [if_pos h, if_pos ⟨Nat.succ_pos s, h⟩]
            simp
          · rw [if_neg h, if_neg (by rintro ⟨-, hh⟩; exact h hh)]

/-- The product frame cell for asset column `(wc, pc)` at date `t`. -/
lemma btCol_getD (wc pc : List ℚ) (t : ℕ) :
    (btCol wc pc).getD t none
      = cellMul ((shiftFwd (wc.map some)).getD t none)
          ((shiftBack (pct_change pc)).getD t none) :=
  getD_zipWith_cellMul _ _ t

lemma btCol_getD_zero (wc pc : List ℚ) : (btCol wc pc).getD 0 none = none := by
  rw [btCol_getD, shiftFwd_map_getD]
  simp [cellMul_none_left]

lemma nansumAt_btFrame_zero :
    ∀ (w p : List (List ℚ)), nansumAt (List.zipWith btCol w p) 0 = 0 := by
  intro w
  induction w with
  | nil => intro p; simp [nansumAt]
  | cons wc wrest ih =>
      intro p
      cases p with
      | nil => simp [nansumAt]
      | cons pc prest =>
          have := ih prest
          simp only [nansumAt, List.zipWith_cons_cons, List.map_cons,
            btCol_getD_zero, List.filterMap_cons] at this ⊢
          exact this

lemma getElem?_zipWith {α β γ : Type} (f : α → β → γ) :
    ∀ (l1 : List α) (l2 : List β) (n : ℕ),
      (List.zipWith f l1 l2)[n]?
        = (l1[n]?).bind fun a => (l2[n]?).map fun b => f a b := by
  intro l1
  induction l1 with
  | nil => intro l2 n; simp
  | cons a t ih =>
      intro l2 n
      cases l2 with
      | nil => simp
      | cons b s =>
          cases n with
          | zero => simp
          | succ m => simpa using ih s m

/-- The backtest series entry at an in-range date `t`. -/
lemma backtest_getD (T : ℕ) (wcols pcols : List (List ℚ)) (t : ℕ)
    (ht : t < T) :
    (backtest T wcols pcols).getD t none
      = some (nansumAt (List.zipWith btCol wcols pcols) t) := by
  rw [backtest, List.getD_eq_getElem _ _ (by simpa using ht)]
  simp [List.getElem_map]

/-- Claim C9 (status: corrected), counterexample to the claim as stated: on a
two-date, one-asset input the leading entry of the returned portfolio series
is the float `0.0`, not NaN — pandas `.sum(axis=1)` skips NaN entries, so the
all-NaN leading product row sums to zero. -/
theorem C9_leading_row_is_not_nan :
    (backtest 2 [[1, 1]] [[(1 : ℚ), 2]]).getD 0 none = some 0 := by
  rw [backtest_getD 2 _ _ 0 (by norm_num), nansumAt_btFrame_zero]

/-- Claim C9 as amended: for every weight and price input with at least one
date, the leading entry of the backtest output is `some 0` (zero, never NaN):
the lagged weight row at the first date is all NaN, and the NaN-skipping row
sum turns it into `0.0`, so the caller's `dropna()` has nothing to drop in
that row. -/
theorem C9_leading_row_is_zero (T : ℕ) (hT : 0 < T)
    (wcols pcols : List (List ℚ)) :
    (backtest T wcols pcols).getD 0 none = some 0 := by
  rw [backtest_getD T _ _ 0 hT, nansumAt_btFrame_zero]

/-- Witness for the amended C9 at a concrete one-date input. -/
theorem C9_leading_row_is_zero_witness :
    0 < 1 ∧ (backtest 1 [[5]] [[(7 : ℚ)]]).getD 0 none = some 0 :=
  ⟨Nat.one_pos, C9_leading_row_is_zero 1 Nat.one_pos [[5]] [[(7 : ℚ)]]⟩

/-- Claim C3 (status: corrected), counterexample to the claim as stated: one
asset, three dates, weights all 1.  The two price columns agree at every date
`t ≤ 1` and differ only at date `2 = d + 1` for `d = 1`, yet the portfolio
return reported for date `d = 1` itself changes (from `0` to `1`), because
the backtester labels the forward return over `[t, t+1]` with date `t`. -/
theorem C3_return_at_d_sees_price_at_d_plus_1 :
    (∀ t ≤ 1, (([[(1 : ℚ), 1, 1]].getD 0 []).getD t 0
        = ([[(1 : ℚ), 1, 2]].getD 0 []).getD t 0))
      ∧ (backtest 3 [[1, 1, 1]] [[(1 : ℚ), 1, 1]]).getD 1 none
          ≠ (backtest 3 [[1, 1, 1]] [[(1 : ℚ), 1, 2]]).getD 1 none := by
  constructor
  · intro t ht
    interval_cases t <;> rfl
  · have hcol1 : (btCol [1, 1, 1] [(1 : ℚ), 1, 1]).getD 1 none = some 0 := by
      rw [btCol_getD, shiftFwd_map_getD, fwdRet_getD]
      norm_num [cellMul, List.getD_cons_zero, List.getD_cons_succ]
    have hcol2 : (btCol [1, 1, 1] [(1 : ℚ), 1, 2]).getD 1 none = some 1 := by
      rw [btCol_getD, shiftFwd_map_getD, fwdRet_getD]
      norm_num [cellMul, List.getD_cons_zero, List.getD_cons_succ]
    rw [backtest_getD 3 _ _ 1 (by norm_num),
      backtest_getD 3 _ _ 1 (by norm_num)]
    simp only [List.zipWith_cons_cons, List.zipWith_nil_right, nansumAt,
      List.map_cons, List.map_nil, hcol1, hcol2, List.filterMap_cons,
      List.filterMap_nil]
    norm_num

/-- Claim C3 as amended: perturbing prices strictly after date `d` (here:
two price frames of equal shape agreeing at all dates `t ≤ d`) leaves the
portfolio return unchanged at every date `t < d` (one date earlier than the
claim's `t ≤ d`). -/
theorem C3_no_lookahead_before_d (T d : ℕ) (wcols pcols pcols2 : List (List ℚ))
    (hn : pcols.length = pcols2.length)
    (hl : ∀ j : ℕ, (pcols.getD j []).length = (pcols2.getD j []).length)
    (ha : ∀ j : ℕ, ∀ t ≤ d, (pcols.getD j []).getD t 0
        = (pcols2.getD j []).getD t 0)
    (t : ℕ) (ht : t < d) :
    (backtest T wcols pcols).getD t none
      = (backtest T wcols pcols2).getD t none := by
  by_cases htT : t < T
  · rw [backtest_getD T _ _ t htT, backtest_getD T _ _ t htT]
    have hcols : (List.zipWith btCol wcols pcols).map (fun c => c.getD t none)
        = (List.zipWith btCol wcols pcols2).map (fun c => c.getD t none) := by
      apply List.ext_getElem?
      intro n
      rw [List.getElem?_map, List.getElem?_map, getElem?_zipWith,
        getElem?_zipWith]
      cases hw : wcols[n]? with
      | none => simp
      | some wc =>
          cases hp : pcols[n]? with
          | none =>
              have hp2 : pcols2[n]? = none := by
                apply List.getElem?_eq_none
                rw [← hn]
                exact List.getElem?_eq_none_iff.mp hp
              simp [hp2]
          | some pc =>
              have hnlt : n < pcols.length := by
                by_contra hcon
                rw [List.getElem?_eq_none (by omega)] at hp
                exact Option.noConfusion hp
              have hnlt2 : n < pcols2.length := hn ▸ hnlt
              obtain ⟨pc2, hp2⟩ : ∃ x, pcols2[n]? = some x :=
                ⟨pcols2[n], List.getElem?_eq_getElem hnlt2⟩
              have hpc : pcols.getD n [] = pc := by
                rw [List.getD_eq_getElem?_getD, hp]; rfl
              have hpc2 : pcols2.getD n [] = pc2 := by
                rw [List.getD_eq_getElem?_getD, hp2]; rfl
              simp only [hp2]
              show some ((btCol wc pc).getD t none)
                  = some ((btCol wc pc2).getD t none)
              congr 1
              rw [btCol_getD, btCol_getD, fwdRet_getD, fwdRet_getD]
              have hlen : pc.length = pc2.length := by
                have := hl n; rwa [hpc, hpc2] at this
              have hv1 : pc.getD t 0 = pc2.getD t 0 := by
                have := ha n t (Nat.le_of_lt ht); rwa [hpc, hpc2] at this
              have hv2 : pc.getD (t + 1) 0 = pc2.getD (t + 1) 0 := by
                have := ha n (t + 1) (by omega); rwa [hpc, hpc2] at this
              rw [hlen, hv1, hv2]
    unfold nansumAt
    rw [hcols]
  · rw [backtest, backtest, List.getD_eq_default, List.getD_eq_default]
    · simpa using htT
    · simpa using htT

/-- Witness for the amended C3 at the counterexample's own input: the two
price columns agree up to date `d = 1`, and the portfolio returns agree at
every date before `d`. -/
theorem C3_no_lookahead_before_d_witness :
    ([[(1 : ℚ), 1, 1]] : List (List ℚ)).length = ([[(1 : ℚ), 1, 2]]).length
      ∧ (∀ t < 1, (backtest 3 [[1, 1, 1]] [[(1 : ℚ), 1, 1]]).getD t none
          = (backtest 3 [[1, 1, 1]] [[(1 : ℚ), 1, 2]]).getD t none) := by
  refine ⟨rfl, fun t ht => ?_⟩
  apply C3_no_lookahead_before_d 3 1 [[1, 1, 1]] [[1, 1, 1]] [[1, 1, 2]]
    rfl _ _ t ht
  · intro j
    match j with
    | 0 => rfl
    | j + 1 => rfl
  · intro j s hs
    match j with
    | 0 => interval_cases s <;> rfl
    | j + 1 => rfl

/-! ## src/signals.py : zscore and composite_alpha

The feature panel is a list of `(date, feature values)` rows — the MultiIndex
`(Date, Ticker)` rows of `make_feature_panel` in index order — together with
the number `nc` of feature columns.  `make_feature_panel` ends in `dropna()`,
so the input panel itself carries no NaN; `zscore` can create NaN, hence the
`Option ℝ` cells downstream.  Values are real numbers and a square root
appears, so this part of the embedding is noncomputable. -/

noncomputable section

open scoped Classical

/-- pandas `Series.mean()`. -/
def meanOf (xs : List ℝ) : ℝ := xs.sum / xs.length

/-- pandas `Series.std()`: the sample standard deviation (`ddof = 1`). -/
def stdOf (xs : List ℝ) : ℝ :=
  Real.sqrt ((xs.map fun x => (x - meanOf xs) ^ 2).sum / ((xs.length : ℝ) - 1))

/-- `zscore` of src/signals.py, `(df - df.mean()) / df.std()`, applied to one
whole feature column.  In float arithmetic every entry becomes NaN exactly
when the column has fewer than two rows (sample std is NaN) or zero sample
standard deviation (`0.0 / 0.0`). -/
def zscore (xs : List ℝ) : List (Option ℝ) :=
  if xs.length < 2 ∨ stdOf xs = 0 then xs.map fun _ => none
  else xs.map fun x => some ((x - meanOf xs) / stdOf xs)

/-- pandas `.mean(axis=1)` with the default `skipna=True`: NaN entries are
ignored, and an all-NaN row has NaN mean. -/
def nanmean (ys : List (Option ℝ)) : Option ℝ :=
  if (ys.filterMap id).length = 0 then none
  else some ((ys.filterMap id).sum / (ys.filterMap id).length)

/-- Feature column `c` of the panel. -/
def colOf (p : List (ℕ × List ℝ)) (c : ℕ) : List ℝ :=
  p.map fun r => r.2.getD c 0

/-- `composite_alpha(panel)`: z-score every feature column over the whole
panel — all `(date, ticker)` rows pooled — then take the NaN-skipping
row-wise mean. -/
def composite_alpha (nc : ℕ) (p : List (ℕ × List ℝ)) : List (ℕ × Option ℝ) :=
  let zcols := (List.range nc).map fun c => zscore (colOf p c)
  (List.range p.length).map fun i =>
    ((p.getD i (0, [])).1, nanmean (zcols.map fun zc => zc.getD i none))

/-- Modelled from the spec wording behind claim C2: standardize each feature
column across exactly the rows of the same date, then take the row-wise
NaN-skipping mean.  `pos` is the position of row `i` inside its date group. -/
def composite_alpha_perdate (nc : ℕ) (p : List (ℕ × List ℝ)) :
    List (ℕ × Option ℝ) :=
  (List.range p.length).map fun i =>
    let d := (p.getD i (0, [])).1
    let grp := p.filter fun r => r.1 = d
    let pos := ((p.take i).filter fun r => r.1 = d).length
    (d, nanmean ((List.range nc).map fun c =>
      (zscore (colOf grp c)).getD pos none))

lemma getD_map_range {α : Type} (f : ℕ → α) (n i : ℕ) (hi : i < n) (d : α) :
    ((List.range n).map f).getD i d = f i := by
  rw [List.getD_eq_getElem _ _ (by simpa using hi)]
  simp

lemma length_colOf (p : List (ℕ × List ℝ)) (c : ℕ) :
    (colOf p c).length = p.length := by simp [colOf]

lemma colOf_getD (p : List (ℕ × List ℝ)) (c i : ℕ) (hi : i < p.length) :
    (colOf p c).getD i 0 = (p.getD i (0, [])).2.getD c 0 := by
  rw [colOf, List.getD_eq_getElem _ _ (by simpa using hi),
    List.getElem_map, List.getD_eq_getElem _ _ hi]

/-- A non-degenerate column standardizes entrywise. -/
lemma zscore_getD (xs : List ℝ) (h2 : 2 ≤ xs.length) (hs : stdOf xs ≠ 0)
    (i : ℕ) (hi : i < xs.length) :
    (zscore xs).getD i none = some ((xs.getD i 0 - meanOf xs) / stdOf xs) := by
  rw [zscore, if_neg (by push_neg; exact ⟨by omega, hs⟩),
    List.getD_eq_getElem _ _ (by simpa using hi), List.getElem_map,
    List.getD_eq_getElem _ _ hi]

/-- A degenerate column (fewer than two rows, or zero sample standard
deviation) standardizes to NaN in every entry. -/
lemma zscore_degenerate (xs : List ℝ)
    (hcond : xs.length < 2 ∨ stdOf xs = 0) (i : ℕ) (hi : i < xs.length) :
    (zscore xs).getD i none = none := by
  rw [zscore, if_pos hcond, List.getD_eq_getElem _ _ (by simpa using hi)]
  simp

lemma nanmean_eq_none_iff (ys : List (Option ℝ)) :
    nanmean ys = none ↔ ∀ x ∈ ys, x = none := by
  have hiff : (ys.filterMap id).length = 0 ↔ ∀ x ∈ ys, x = none := by
    rw [List.length_eq_zero, List.filterMap_eq_nil_iff]
    simp
  rw [nanmean]
  by_cases h : (ys.filterMap id).length = 0
  · simp only [if_pos h]
    simpa using hiff.mp h
  · simp only [if_neg h]
    constructor
    · intro hcontra; exact absurd hcontra (by simp)
    · intro hall; exact absurd (hiff.mpr hall) h

lemma nanmean_eq_some (ys : List (Option ℝ)) (v : ℝ)
    (h : nanmean ys = some v) :
    v = (ys.filterMap id).sum / (ys.filterMap id).length := by
  rw [nanmean] at h
  by_cases hl : (ys.filterMap id).length = 0
  · rw [if_pos hl] at h; exact Option.noConfusion h
  · rw [if_neg hl] at h; exact (Option.some_inj.mp h).symm

lemma nanmean_map_some (l : List ℝ) (hl : l ≠ []) :
    nanmean (l.map some) = some (l.sum / l.length) := by
  have hsome : (l.map some).filterMap id = l := by
    induction l with
    | nil => simp
    | cons x t ih => simp [ih]
  rw [nanmean, hsome, if_neg (by simpa [List.length_eq_zero] using hl)]

/-- The composite alpha row `i` in terms of the per-column z-score entries. -/
lemma composite_alpha_getD (nc : ℕ) (p : List (ℕ × List ℝ)) (i : ℕ)
    (hi : i < p.length) :
    (composite_alpha nc p).getD i (0, none)
      = ((p.getD i (0, [])).1,
          nanmean ((List.range nc).map fun c =>
            (zscore (colOf p c)).getD i none)) := by
  simp only [composite_alpha]
  rw [getD_map_range _ _ _ hi, List.map_map]
  rfl

/-- A six-row, one-feature panel over two dates: feature values `0, 1, 2` on
date `0` and `2, 3, 4` on date `1`. -/
def P6 : List (ℕ × List ℝ) :=
  [(0, [0]), (0, [1]), (0, [2]), (1, [2]), (1, [3]), (1, [4])]

lemma colOf_P6 : colOf P6 0 = [0, 1, 2, 2, 3, 4] := by
  simp [colOf, P6]

lemma meanOf_P6col : meanOf [(0 : ℝ), 1, 2, 2, 3, 4] = 2 := by
  simp [meanOf]
  norm_num

lemma stdOf_P6col : stdOf [(0 : ℝ), 1, 2, 2, 3, 4] = Real.sqrt 2 := by
  rw [stdOf, meanOf_P6col]
  norm_num

lemma stdOf_P6col_ne : stdOf [(0 : ℝ), 1, 2, 2, 3, 4] ≠ 0 := by
  rw [stdOf_P6col]
  exact (Real.sqrt_pos.mpr (by norm_num)).ne'

/-- Claim C2 (status: corrected), counterexample to the claim as stated: on
the panel `P6` the code's composite alpha at the first row is
`(0 - 2) / sqrt 2` — the first feature value standardized by the mean and
standard deviation of the WHOLE pooled column `[0,1,2,2,3,4]` — whereas
standardizing across only the assets present on date `0` (column `[0,1,2]`,
mean `1`, std `1`) gives `-1`.  The two disagree. -/
theorem C2_not_per_date_standardized :
    (composite_alpha 1 P6).getD 0 (0, none)
      ≠ (composite_alpha_perdate 1 P6).getD 0 (0, none) := by
  have hz0 : (zscore (colOf P6 0)).getD 0 none
      = some ((0 - 2) / Real.sqrt 2) := by
    rw [colOf_P6, zscore_getD _ (by norm_num) stdOf_P6col_ne 0 (by norm_num),
      meanOf_P6col, stdOf_P6col]
    norm_num
  have hL : (composite_alpha 1 P6).getD 0 (0, none)
      = (0, some ((0 - 2) / Real.sqrt 2)) := by
    rw [composite_alpha_getD 1 P6 0 (by norm_num [P6])]
    rw [show List.range 1 = [0] from rfl]
    simp only [List.map_cons, List.map_nil, hz0]
    rw [show ((P6.getD 0 (0, [])).1 : ℕ) = 0 from rfl]
    rw [nanmean]
    simp
  have hgrp : P6.filter (fun r => r.1 = 0) = [(0, [0]), (0, [1]), (0, [2])] := by
    simp [P6]
  have hcolg : colOf [((0 : ℕ), [(0 : ℝ)]), (0, [1]), (0, [2])] 0 = [0, 1, 2] := by
    simp [colOf]
  have hmeang : meanOf [(0 : ℝ), 1, 2] = 1 := by
    simp [meanOf]; norm_num
  have hstdg : stdOf [(0 : ℝ), 1, 2] = 1 := by
    rw [stdOf, hmeang]
    norm_num
  have hzg : (zscore (colOf [((0 : ℕ), [(0 : ℝ)]), (0, [1]), (0, [2])] 0)).getD 0 none
      = some (-1) := by
    rw [hcolg, zscore_getD _ (by norm_num) (by rw [hstdg]; norm_num) 0 (by norm_num),
      hmeang, hstdg]
    norm_num
  have hR : (composite_alpha_perdate 1 P6).getD 0 (0, none) = (0, some (-1)) := by
    rw [composite_alpha_perdate, getD_map_range _ _ _ (by norm_num [P6])]
    simp only [List.take_zero, List.filter_nil, List.length_nil]
    rw [show ((P6.getD 0 (0, [])).1 : ℕ) = 0 from rfl, hgrp,
      show List.range 1 = [0] from rfl]
    simp only [List.map_cons, List.map_nil, hzg]
    rw [nanmean]
    simp
  rw [hL, hR]
  intro hcontra
  have heq : (0 - 2 : ℝ) / Real.sqrt 2 = -1 := by
    have := congrArg Prod.snd hcontra
    simpa using this
  have hpos : (0 : ℝ) < Real.sqrt 2 := Real.sqrt_pos.mpr (by norm_num)
  have hsq : Real.sqrt 2 ^ 2 = 2 := Real.sq_sqrt (by norm_num)
  have h2 : Real.sqrt 2 = 2 := by
    field_simp at heq
    linarith
  rw [h2] at hsq
  norm_num at hsq

/-- Claim C2 as amended: `composite_alpha` standardizes each feature column
over the ENTIRE panel — all `(date, asset)` rows pooled, not per date — and
the composite alpha of each row is the unweighted mean of the pooled
standardized feature values of that row. -/
theorem C2_pooled_standardization (nc : ℕ) (p : List (ℕ × List ℝ))
    (hnc : 0 < nc) (hlen : 2 ≤ p.length)
    (hstd : ∀ c < nc, stdOf (colOf p c) ≠ 0)
    (i : ℕ) (hi : i < p.length) :
    (composite_alpha nc p).getD i (0, none)
      = ((p.getD i (0, [])).1,
          some ((((List.range nc).map fun c =>
              ((p.getD i (0, [])).2.getD c 0 - meanOf (colOf p c))
                / stdOf (colOf p c)).sum) / nc)) := by
  rw [composite_alpha_getD nc p i hi]
  have hmap : (List.range nc).map (fun c => (zscore (colOf p c)).getD i none)
      = ((List.range nc).map fun c =>
          ((p.getD i (0, [])).2.getD c 0 - meanOf (colOf p c))
            / stdOf (colOf p c)).map some := by
    rw [List.map_map]
    apply List.map_congr_left
    intro c hc
    have hc' : c < nc := List.mem_range.mp hc
    rw [zscore_getD (colOf p c) (by rw [length_colOf]; exact hlen)
      (hstd c hc') i (by rw [length_colOf]; exact hi), colOf_getD p c i hi]
    rfl
  rw [hmap, nanmean_map_some _ (by
    simp only [ne_eq, List.map_eq_nil_iff, List.range_eq_nil]
    omega)]
  simp

/-- Witness for the amended C2 at the concrete panel `P6`. -/
theorem C2_pooled_standardization_witness :
    0 < 1 ∧ 2 ≤ P6.length
      ∧ (composite_alpha 1 P6).getD 0 (0, none)
          = ((P6.getD 0 (0, [])).1,
              some ((((List.range 1).map fun c =>
                  ((P6.getD 0 (0, [])).2.getD c 0 - meanOf (colOf P6 c))
                    / stdOf (colOf P6 c)).sum) / (1 : ℕ))) := by
  refine ⟨Nat.one_pos, by norm_num [P6], ?_⟩
  apply C2_pooled_standardization 1 P6 Nat.one_pos (by norm_num [P6])
    (fun c hc => ?_) 0 (by norm_num [P6])
  interval_cases c
  rw [colOf_P6]
  exact stdOf_P6col_ne

/-- Claim C10: (i) a feature column with zero pooled standard deviation (or
fewer than two rows) standardizes to NaN in every entry; (ii) the composite
alpha of a row is NaN exactly when every feature's standardized value for
that row is NaN; (iii) otherwise the composite alpha is the mean of only the
remaining finite standardized feature values of the row. -/
theorem C10_degenerate_features_skipped (nc : ℕ) (p : List (ℕ × List ℝ))
    (i : ℕ) (hi : i < p.length) :
    (∀ c < nc, ((colOf p c).length < 2 ∨ stdOf (colOf p c) = 0) →
        (zscore (colOf p c)).getD i none = none)
      ∧ (((composite_alpha nc p).getD i (0, none)).2 = none
          ↔ ∀ c < nc, (zscore (colOf p c)).getD i none = none)
      ∧ ∀ v : ℝ, ((composite_alpha nc p).getD i (0, none)).2 = some v →
          v = ((((List.range nc).map fun c =>
                  (zscore (colOf p c)).getD i none).filterMap id).sum)
                / ((((List.range nc).map fun c =>
                  (zscore (colOf p c)).getD i none).filterMap id).length) := by
  have hbody : ((composite_alpha nc p).getD i (0, none)).2
      = nanmean ((List.range nc).map fun c =>
          (zscore (colOf p c)).getD i none) := by
    rw [composite_alpha_getD nc p i hi]
  refine ⟨?_, ?_, ?_⟩
  · intro c _ hcond
    exact zscore_degenerate _ hcond i (by rw [length_colOf]; exact hi)
  · rw [hbody, nanmean_eq_none_iff]
    constructor
    · intro h c hc
      exact h _ (List.mem_map_of_mem _ (List.mem_range.mpr hc))
    · intro h x hx
      rcases List.mem_map.mp hx with ⟨c, hc, rfl⟩
      exact h c (List.mem_range.mp hc)
  · intro v hv
    rw [hbody] at hv
    exact nanmean_eq_some _ _ hv

/-- Witness for C10 at a two-row, two-feature panel whose first feature
column `[1, 1]` is degenerate (zero standard deviation) while the second
`[0, 2]` is not. -/
theorem C10_degenerate_features_skipped_witness :
    0 < ([((0 : ℕ), [(1 : ℝ), 0]), (0, [1, 2])] : List (ℕ × List ℝ)).length
      ∧ ((∀ c < 2, ((colOf [((0 : ℕ), [(1 : ℝ), 0]), (0, [1, 2])] c).length < 2
              ∨ stdOf (colOf [((0 : ℕ), [(1 : ℝ), 0]), (0, [1, 2])] c) = 0) →
            (zscore (colOf [((0 : ℕ), [(1 : ℝ), 0]), (0, [1, 2])] c)).getD 0 none = none)
          ∧ (((composite_alpha 2 [((0 : ℕ), [(1 : ℝ), 0]), (0, [1, 2])]).getD 0 (0, none)).2 = none
              ↔ ∀ c < 2, (zscore (colOf [((0 : ℕ), [(1 : ℝ), 0]), (0, [1, 2])] c)).getD 0 none = none)
          ∧ ∀ v : ℝ, (((composite_alpha 2 [((0 : ℕ), [(1 : ℝ), 0]), (0, [1, 2])]).getD 0 (0, none)).2 = some v) →
              v = ((((List.range 2).map fun c =>
                      (zscore (colOf [((0 : ℕ), [(1 : ℝ), 0]), (0, [1, 2])] c)).getD 0 none).filterMap id).sum)
                    / ((((List.range 2).map fun c =>
                      (zscore (colOf [((0 : ℕ), [(1 : ℝ), 0]), (0, [1, 2])] c)).getD 0 none).filterMap id).length)) :=
  ⟨by norm_num,
    C10_degenerate_features_skipped 2 [((0 : ℕ), [(1 : ℝ), 0]), (0, [1, 2])] 0
      (by norm_num)⟩

/-! ## src/utils.py : performance_stats

The return series is a list of reals (one return per period); the series the
application passes is nonempty (`performance_stats` of an empty series raises
`ZeroDivisionError` at `252/len(series)` and is outside the model).  pandas
`Series.std()` of fewer than two observations is NaN, and Python `if ann_vol`
treats NaN as truthy, so a NaN volatility flows into the Sharpe ratio. -/

/-- pandas `Series.cumsum()`. -/
def cumsum : List ℝ → List ℝ
  | [] => []
  | x :: t => x :: (cumsum t).map (fun y => x + y)

/-- pandas `Series.cummax()`. -/
def cummax : List ℝ → List ℝ
  | [] => []
  | x :: t => x :: (cummax t).map (fun y => max x y)

/-- pandas `Series.max()`: NaN on an empty series. -/
def listMax : List ℝ → Option ℝ
  | [] => none
  | x :: t => some (t.foldl max x)

/-- The record returned by `performance_stats`; `Vol`, `Sharpe` and `MaxDD`
can be NaN in pandas, hence `Option`. -/
structure Stats where
  CAGR : ℝ
  Vol : Option ℝ
  Sharpe : Option ℝ
  MaxDD : Option ℝ

/-- `performance_stats(series)`: annualized compounded return, annualized
sample volatility, Sharpe ratio with the falsy-zero fallback of
`ann_ret / ann_vol if ann_vol else 0`, and the maximum drawdown of the
cumulative-sum-plus-one curve. -/
def performance_stats (s : List ℝ) : Stats :=
  let ann_ret := ((s.map fun x => 1 + x).prod) ^ ((252 : ℝ) / s.length) - 1
  let ann_vol : Option ℝ :=
    if s.length < 2 then none else some (stdOf s * Real.sqrt 252)
  let sharpe : Option ℝ :=
    match ann_vol with
    | none => none
    | some v => if v = 0 then some 0 else some (ann_ret / v)
  let curve := (cumsum s).map fun x => x + 1
  let dd := List.zipWith (fun m x => m - x) (cummax curve) curve
  { CAGR := ann_ret, Vol := ann_vol, Sharpe := sharpe, MaxDD := listMax dd }

lemma length_cumsum : ∀ s : List ℝ, (cumsum s).length = s.length
  | [] => rfl
  | x :: t => by simp [cumsum, length_cumsum t]

lemma length_cummax : ∀ s : List ℝ, (cummax s).length = s.length
  | [] => rfl
  | x :: t => by simp [cummax, length_cummax t]

lemma cumsum_all_zero :
    ∀ s : List ℝ, (∀ x ∈ s, x = 0) → ∀ y ∈ cumsum s, y = 0 := by
  intro s
  induction s with
  | nil => intro _ y hy; simp [cumsum] at hy
  | cons x t ih =>
      intro hz y hy
      rw [cumsum] at hy
      rcases List.mem_cons.mp hy with h | h
      · rw [h]; exact hz x (by simp)
      · rcases List.mem_map.mp h with ⟨z, hzmem, rfl⟩
        rw [hz x (by simp), ih (fun a ha => hz a (by simp [ha])) z hzmem]
        norm_num

lemma cummax_all_one :
    ∀ l : List ℝ, (∀ x ∈ l, x = 1) → ∀ y ∈ cummax l, y = 1 := by
  intro l
  induction l with
  | nil => intro _ y hy; simp [cummax] at hy
  | cons x t ih =>
      intro h1 y hy
      rw [cummax] at hy
      rcases List.mem_cons.mp hy with h | h
      · rw [h]; exact h1 x (by simp)
      · rcases List.mem_map.mp h with ⟨z, hzmem, rfl⟩
        rw [h1 x (by simp), ih (fun a ha => h1 a (by simp [ha])) z hzmem]
        norm_num

lemma zipWith_sub_all_zero :
    ∀ (l1 l2 : List ℝ), (∀ x ∈ l1, x = 1) → (∀ x ∈ l2, x = 1) →
      ∀ z ∈ List.zipWith (fun m x => m - x) l1 l2, z = 0 := by
  intro l1
  induction l1 with
  | nil => intro l2 _ _ z hz; simp at hz
  | cons a t ih =>
      intro l2 h1 h2 z hz
      cases l2 with
      | nil => simp at hz
      | cons b s =>
          rw [List.zipWith_cons_cons] at hz
          rcases List.mem_cons.mp hz with h | h
          · rw [h, h1 a (by simp), h2 b (by simp)]; norm_num
          · exact ih s (fun x hx => h1 x (by simp [hx]))
              (fun x hx => h2 x (by simp [hx])) z h

lemma listMax_all_zero (l : List ℝ) (hne : l ≠ [])
    (hz : ∀ x ∈ l, x = 0) : listMax l = some 0 := by
  cases l with
  | nil => exact absurd rfl hne
  | cons x t =>
      rw [listMax, hz x (by simp)]
      congr 1
      have : ∀ u : List ℝ, (∀ x ∈ u, x = 0) → u.foldl max 0 = 0 := by
        intro u
        induction u with
        | nil => intro _; rfl
        | cons y r ihr =>
            intro hu
            rw [List.foldl_cons, hu y (by simp), max_self]
            exact ihr fun a ha => hu a (by simp [ha])
      exact this t fun a ha => hz a (by simp [ha])

/-- Claim C7 (status: corrected), counterexample to the claim as stated for
"any all-zero return series": on the one-element series `[0.0]` the sample
standard deviation is NaN (`ddof = 1`), so `Vol` is NaN, and NaN is truthy in
Python, so `Sharpe = 0/NaN` is NaN as well — neither is the claimed `0`. -/
theorem C7_single_zero_return_gives_nan :
    (performance_stats [(0 : ℝ)]).Vol = none
      ∧ (performance_stats [(0 : ℝ)]).Sharpe = none := by
  constructor <;> simp [performance_stats]

set_option maxRecDepth 4000 in
/-- Claim C7 as amended: for every all-zero return series with at least two
observations (in particular the fifteen-year daily series) `performance_stats`
returns `CAGR = 0`, `Vol = 0`, `Sharpe = 0` (the zero-volatility fallback,
with no division by zero) and `MaxDD = 0`. -/
theorem C7_all_zero_series_stats (s : List ℝ) (h2 : 2 ≤ s.length)
    (hz : ∀ x ∈ s, x = 0) :
    performance_stats s = ⟨0, some 0, some 0, some 0⟩ := by
  have hprod : (s.map fun x => 1 + x).prod = 1 := by
    apply List.prod_eq_one
    intro y hy
    rcases List.mem_map.mp hy with ⟨x, hx, rfl⟩
    rw [hz x hx]; norm_num
  have hmean : meanOf s = 0 := by
    rw [meanOf, List.sum_eq_zero hz, zero_div]
  have hstd : stdOf s = 0 := by
    rw [stdOf]
    have : (s.map fun x => (x - meanOf s) ^ 2).sum = 0 := by
      apply List.sum_eq_zero
      intro y hy
      rcases List.mem_map.mp hy with ⟨x, hx, rfl⟩
      rw [hz x hx, hmean]; norm_num
    rw [this, zero_div, Real.sqrt_zero]
  have hvol : (if s.length < 2 then (none : Option ℝ)
      else some (stdOf s * Real.sqrt 252)) = some 0 := by
    rw [if_neg (by omega), hstd, zero_mul]
  have hcurve1 : ∀ x ∈ (cumsum s).map (fun x => x + 1), x = 1 := by
    intro x hx
    rcases List.mem_map.mp hx with ⟨y, hy, rfl⟩
    rw [cumsum_all_zero s hz y hy, zero_add]
  have hddzero : ∀ z ∈ List.zipWith (fun m x => m - x)
      (cummax ((cumsum s).map fun x => x + 1)) ((cumsum s).map fun x => x + 1),
      z = 0 :=
    zipWith_sub_all_zero _ _ (cummax_all_one _ hcurve1) hcurve1
  have hddne : List.zipWith (fun m x => m - x)
      (cummax ((cumsum s).map fun x => x + 1))
      ((cumsum s).map fun x => x + 1) ≠ [] := by
    intro hcon
    have hlen := congrArg List.length hcon
    rw [List.length_zipWith, length_cummax, List.length_map, length_cumsum] at hlen
    simp only [List.length_nil, min_self] at hlen
    omega
  have hmdd : listMax (List.zipWith (fun m x => m - x)
      (cummax ((cumsum s).map fun x => x + 1))
      ((cumsum s).map fun x => x + 1)) = some 0 :=
    listMax_all_zero _ hddne hddzero
  simp only [performance_stats, Stats.mk.injEq, hvol, hprod, Real.one_rpow, hmdd]
  norm_num

/-- Witness for the amended C7 at the claim's own fifteen-year series:
`15 * 252 = 3780` daily returns of `0.0`. -/
theorem C7_all_zero_series_stats_witness :
    2 ≤ (List.replicate 3780 (0 : ℝ)).length
      ∧ performance_stats (List.replicate 3780 (0 : ℝ))
          = ⟨0, some 0, some 0, some 0⟩ :=
  ⟨by rw [List.length_replicate]; norm_num,
    C7_all_zero_series_stats _ (by rw [List.length_replicate]; norm_num)
      (fun x hx => List.eq_of_mem_replicate hx)⟩

end

end PortfolioApp


namespace PortfolioApp

/-! ## app.py : load_or_build_merged (build path), cache, regression guard

`load_or_build_merged(tickers)` builds the monthly merged Fama-French table.
The model abstracts the two network sources: `daily` is the shared daily
price frame as `(month of the date, price row)` pairs in date order with one
column per requested ticker (tickers are the column indices
`0, ..., nTickers-1`), and `raw` is the monthly Ken-French factor table in
percent units with distinct month keys.  Dates are identified by their month
number; `resample("M").last()` keeps, for each month, the last daily row
(months absent from the data are not modelled — no gap filling). -/

/-- One month of raw Ken-French factor data, in percent units. -/
structure FactorRow where
  mktMinusRF : ℚ
  smb : ℚ
  hml : ℚ
  rf : ℚ

/-- `.div(100)`: the single percent-to-decimal conversion. -/
def divFactor (f : FactorRow) : FactorRow :=
  ⟨f.mktMinusRF / 100, f.smb / 100, f.hml / 100, f.rf / 100⟩

/-- `prices.resample("M").last()`: the last daily price row of each month. -/
def resampleLast (daily : List (ℕ × List ℚ)) : List (ℕ × List ℚ) :=
  ((daily.map Prod.fst).dedup).filterMap fun m =>
    ((daily.filter fun r => r.1 = m).getLast?).map fun r => (m, r.2)

/-- `.pct_change()` on the monthly rows: a leading all-NaN row, then
elementwise simple returns between consecutive rows. -/
def pct_change_rows (mp : List (ℕ × List ℚ)) : List (ℕ × List Cell) :=
  match mp with
  | [] => []
  | first :: _ =>
      (first.1, first.2.map fun _ => none)
        :: List.zipWith (fun prev cur =>
              (cur.1, List.zipWith (fun a b => some (b / a - 1)) prev.2 cur.2))
            mp mp.tail

/-- All-or-nothing extraction of a row's cells: `some` of the values when no
entry is NaN, `none` otherwise. -/
def seqCells : List Cell → Option (List ℚ)
  | [] => some []
  | none :: _ => none
  | some x :: t => (seqCells t).map fun vs => x :: vs

/-- `.dropna()`: keep exactly the rows with no NaN entry. -/
def dropna_rows (rs : List (ℕ × List Cell)) : List (ℕ × List ℚ) :=
  rs.filterMap fun r => (seqCells r.2).map fun vs => (r.1, vs)

/-- One row of the merged table:
`Date | Ticker | ExcessReturn | MktMinusRF | SMB | HML | RF`. -/
structure MergedRow where
  month : ℕ
  ticker : ℕ
  excessReturn : ℚ
  mktMinusRF : ℚ
  smb : ℚ
  hml : ℚ
  rf : ℚ

/-- The build path of `load_or_build_merged` (steps 1-5 of the source):
month-end prices, monthly simple returns with the leading NaN row dropped,
percent-to-decimal factor conversion applied once, inner join of returns and
factors on the month index, per-ticker excess returns, and the ticker-major
unpivot into long form. -/
def build_merged (nTickers : ℕ) (daily : List (ℕ × List ℚ))
    (raw : List (ℕ × FactorRow)) : List MergedRow :=
  let monthly_prices := resampleLast daily
  let monthly_returns := dropna_rows (pct_change_rows monthly_prices)
  let ff := raw.map fun p => (p.1, divFactor p.2)
  let aligned := monthly_returns.filterMap fun r =>
    (ff.lookup r.1).map fun f => (r.1, r.2, f)
  (List.range nTickers).flatMap fun j =>
    aligned.map fun a =>
      { month := a.1, ticker := j,
        excessReturn := a.2.1.getD j 0 - a.2.2.rf,
        mktMinusRF := a.2.2.mktMinusRF, smb := a.2.2.smb,
        hml := a.2.2.hml, rf := a.2.2.rf }

/-- The caching wrapper of `load_or_build_merged`: the parquet path
`data/merged_ff_data.parquet` is a fixed constant, so an existing cache file
is read back and returned as-is no matter which tickers the current request
asks for; only a missing cache triggers a build, which is then persisted.
Returns the table together with the new cache content. -/
def load_or_build_merged (cache : Option (List MergedRow)) (nTickers : ℕ)
    (daily : List (ℕ × List ℚ)) (raw : List (ℕ × FactorRow)) :
    List MergedRow × Option (List MergedRow) :=
  match cache with
  | some t => (t, some t)
  | none =>
      (build_merged nTickers daily raw, some (build_merged nTickers daily raw))

end PortfolioApp

namespace PortfolioApp

/-- Two sample requests: one ticker with daily prices over months `0, 1`, and
two tickers over the same months; one month of raw factor data (percent). -/
def daily1 : List (ℕ × List ℚ) := [(0, [10]), (1, [20])]

def daily2 : List (ℕ × List ℚ) := [(0, [10, 10]), (1, [20, 30])]

def raw1 : List (ℕ × FactorRow) := [(1, ⟨2, 3, 4, 1⟩)]

/-- Claim C6 (status: corrected), counterexample to the claim as stated: a
first request for the one-ticker universe builds and caches the table; a
second request for the two-ticker universe hits the cache file (whose path
does not depend on the tickers) and gets the one-ticker table back — ticker
`1` is absent from the returned `Ticker` column even though a fresh build for
the requested ticker set would contain it. -/
theorem C6_stale_cache_for_new_tickers :
    (1 : ℕ) ∉ ((load_or_build_merged
          (load_or_build_merged none 1 daily1 raw1).2 2 daily2 raw1).1.map
        MergedRow.ticker)
      ∧ (1 : ℕ) ∈ ((build_merged 2 daily2 raw1).map MergedRow.ticker) := by
  constructor
  · show (1 : ℕ) ∉ ((build_merged 1 daily1 raw1).map MergedRow.ticker)
    decide
  · decide

/-- Claim C6 as amended: the on-disk cache key is a fixed file path that does
not include the ticker set, so whenever a cached table exists,
`load_or_build_merged` returns it unchanged for every requested ticker set;
a ticker-set change does NOT invalidate the persisted cache. -/
theorem C6_cache_hit_ignores_tickers (cache : Option (List MergedRow))
    (t : List MergedRow) (hc : cache = some t) (nTickers : ℕ)
    (daily : List (ℕ × List ℚ)) (raw : List (ℕ × FactorRow)) :
    (load_or_build_merged cache nTickers daily raw).1 = t := by
  subst hc
  rfl

/-- Witness for the amended C6: a cached table is returned as-is. -/
theorem C6_cache_hit_ignores_tickers_witness :
    (some ([] : List MergedRow) = some ([] : List MergedRow))
      ∧ (load_or_build_merged (some ([] : List MergedRow)) 5 daily2 raw1).1
          = [] :=
  ⟨rfl, C6_cache_hit_ignores_tickers _ [] rfl 5 daily2 raw1⟩

/-! ### The Fama-French regression (app.py, `len(df_t) >= 12` guard)

`sm.OLS(y, X).fit(cov_type="HAC", ...)` point estimates for the design
`[const, MktMinusRF, SMB, HML]` are the normal-equation solution
`(Xᵀ X)⁻¹ Xᵀ y` whenever the design has full column rank; the Cramer form
below (`adjugate / det`) agrees with it there.  The robust covariance choice
affects only standard errors, not the coefficients. -/

/-- The design row `[1, MktMinusRF, SMB, HML]` of one observation. -/
def designRow (r : MergedRow) : Fin 4 → ℚ := ![1, r.mktMinusRF, r.smb, r.hml]

/-- `Xᵀ X` over the observation list. -/
def normalMat (rs : List MergedRow) : Matrix (Fin 4) (Fin 4) ℚ :=
  Matrix.of fun i j => (rs.map fun r => designRow r i * designRow r j).sum

/-- `Xᵀ y` over the observation list. -/
def normalVec (rs : List MergedRow) (i : Fin 4) : ℚ :=
  (rs.map fun r => designRow r i * r.excessReturn).sum

/-- OLS point estimates in Cramer form. -/
def olsParams (rs : List MergedRow) (i : Fin 4) : ℚ :=
  (normalMat rs).adjugate.mulVec (normalVec rs) i / (normalMat rs).det

/-- The regression outputs read off in the source: intercept, the three
loadings, and the one-step-ahead prediction from the last available factor
row. -/
structure RegResult where
  alphaHat : ℚ
  betaMkt : ℚ
  betaSmb : ℚ
  betaHml : ℚ
  predicted : ℚ

/-- Fit the three-factor regression and predict from the last factor row. -/
def olsFit (rs : List MergedRow) : RegResult :=
  let p := olsParams rs
  let lastF := (rs.getLast?).elim ((0 : ℚ), (0 : ℚ), (0 : ℚ))
    fun r => (r.mktMinusRF, r.smb, r.hml)
  { alphaHat := p 0, betaMkt := p 1, betaSmb := p 2, betaHml := p 3,
    predicted := p 0 + p 1 * lastF.1 + p 2 * lastF.2.1 + p 3 * lastF.2.2 }

/-- The regression block of app.py: restrict the merged table to the selected
ticker, truncate at the cutoff date, and fit only when at least 12 monthly
observations remain — otherwise produce no result (and no failure). -/
def regression_result (merged : List MergedRow) (sel cutoff : ℕ) :
    Option RegResult :=
  let df_t := merged.filter fun r =>
    decide (r.ticker = sel) && decide (r.month ≤ cutoff)
  if 12 ≤ df_t.length then some (olsFit df_t) else none

/-- Claim C8: the regression produces a result exactly when the selected
ticker's truncated table has at least 12 observations; with fewer (such as 6
months) the outcome is the explicit no-result `none`, never a failure. -/
theorem C8_regression_needs_12_observations (merged : List MergedRow)
    (sel cutoff : ℕ) :
    (regression_result merged sel cutoff).isSome
      ↔ 12 ≤ (merged.filter fun r =>
          decide (r.ticker = sel) && decide (r.month ≤ cutoff)).length := by
  rw [regression_result]
  by_cases h : 12 ≤ (merged.filter fun r =>
      decide (r.ticker = sel) && decide (r.month ≤ cutoff)).length
  · simp [h]
  · simp [h]

end PortfolioApp

namespace PortfolioApp

lemma mem_of_getLast?_eq {α : Type} :
    ∀ {l : List α} {a : α}, l.getLast? = some a → a ∈ l := by
  intro l
  induction l with
  | nil => intro a h; exact Option.noConfusion h
  | cons x t ih =>
      intro a h
      cases t with
      | nil =>
          rw [List.getLast?_singleton] at h
          exact List.mem_singleton.mpr (Option.some_inj.mp h).symm
      | cons y s =>
          rw [List.getLast?_cons_cons] at h
          exact List.mem_cons_of_mem x (ih h)

/-- Every month-end row of `resampleLast` is one of the daily rows, so it has
the same number of ticker columns. -/
lemma resampleLast_row_length (daily : List (ℕ × List ℚ)) (nTickers : ℕ)
    (hw : ∀ r ∈ daily, r.2.length = nTickers) :
    ∀ q ∈ resampleLast daily, q.2.length = nTickers := by
  intro q hq
  rcases List.mem_filterMap.mp hq with ⟨m, _, hmap⟩
  rcases Option.map_eq_some'.mp hmap with ⟨r, hlast, rfl⟩
  exact hw r (List.mem_of_mem_filter (mem_of_getLast?_eq hlast))

lemma lookup_map_div (raw : List (ℕ × FactorRow)) (m : ℕ) :
    (raw.map fun p => (p.1, divFactor p.2)).lookup m
      = (raw.lookup m).map divFactor := by
  induction raw with
  | nil => rfl
  | cons p t ih =>
      rw [List.map_cons]
      cases h : m == p.1 <;> simp [List.lookup, h, ih]

lemma seqCells_map_some : ∀ l : List ℚ, seqCells (l.map some) = some l := by
  intro l
  induction l with
  | nil => rfl
  | cons x t ih => simp [seqCells, ih]

lemma seqCells_const_none (l : List ℚ) (hl : l ≠ []) :
    seqCells (l.map fun _ => none) = none := by
  cases l with
  | nil => exact absurd rfl hl
  | cons x t => rfl

lemma zipWith_some_eq_map (f : ℚ → ℚ → ℚ) :
    ∀ (l1 l2 : List ℚ),
      List.zipWith (fun a b => some (f a b)) l1 l2
        = (List.zipWith f l1 l2).map some := by
  intro l1
  induction l1 with
  | nil => intro l2; simp
  | cons a t ih =>
      intro l2
      cases l2 with
      | nil => simp
      | cons b s => simp [ih]

lemma getD_zipWith_of_lt (f : ℚ → ℚ → ℚ) (l1 l2 : List ℚ) (j : ℕ)
    (h1 : j < l1.length) (h2 : j < l2.length) :
    (List.zipWith f l1 l2).getD j 0 = f (l1.getD j 0) (l2.getD j 0) := by
  rw [List.getD_eq_getElem _ _ (by rw [List.length_zipWith]; omega),
    List.getElem_zipWith, List.getD_eq_getElem _ _ h1,
    List.getD_eq_getElem _ _ h2]

lemma getElem?_tail {α : Type} (l : List α) (n : ℕ) :
    l.tail[n]? = l[n + 1]? := by
  cases l <;> simp

end PortfolioApp

namespace PortfolioApp

/-- Claim C4: every row of the merged table built by `load_or_build_merged`
has `ExcessReturn` equal to the asset's month-end-to-month-end simple return
minus that month's (decimal) risk-free rate, and factor columns equal to the
raw percent factor inputs divided by 100 exactly once, inner-joined on the
month index of the stock returns (the row's month carries both a pair of
consecutive month-end prices and a raw factor row). -/
theorem C4_merged_rows_correct (nTickers : ℕ) (daily : List (ℕ × List ℚ))
    (raw : List (ℕ × FactorRow))
    (hw : ∀ r ∈ daily, r.2.length = nTickers) :
    ∀ row ∈ build_merged nTickers daily raw,
      row.ticker < nTickers
        ∧ ∃ (k mPrev : ℕ) (psPrev : List ℚ) (mCur : ℕ) (psCur : List ℚ)
            (F : FactorRow),
            (resampleLast daily)[k]? = some (mPrev, psPrev)
            ∧ (resampleLast daily)[k + 1]? = some (mCur, psCur)
            ∧ row.month = mCur
            ∧ raw.lookup mCur = some F
            ∧ row.excessReturn
                = psCur.getD row.ticker 0 / psPrev.getD row.ticker 0 - 1
                  - F.rf / 100
            ∧ row.mktMinusRF = F.mktMinusRF / 100
            ∧ row.smb = F.smb / 100
            ∧ row.hml = F.hml / 100
            ∧ row.rf = F.rf / 100 := by
  intro row hrow
  simp only [build_merged] at hrow
  rcases List.mem_flatMap.mp hrow with ⟨j, hj, hmem⟩
  have hjlt : j < nTickers := List.mem_range.mp hj
  rcases List.mem_map.mp hmem with ⟨a, ha, rfl⟩
  rcases List.mem_filterMap.mp ha with ⟨mr, hmr, hmap⟩
  rcases Option.map_eq_some'.mp hmap with ⟨fdec, hlook, rfl⟩
  rw [lookup_map_div] at hlook
  rcases Option.map_eq_some'.mp hlook with ⟨F, hlookraw, rfl⟩
  rcases List.mem_filterMap.mp hmr with ⟨prow, hprow, hseq⟩
  rcases Option.map_eq_some'.mp hseq with ⟨vs, hvs, hmreq⟩
  subst hmreq
  cases hmp : resampleLast daily with
  | nil =>
      rw [hmp] at hprow
      simp [pct_change_rows] at hprow
  | cons p0 mprest =>
      rw [hmp, pct_change_rows] at hprow
      rcases List.mem_cons.mp hprow with hhead | htail
      · exfalso
        have hlen0 : p0.2.length = nTickers :=
          resampleLast_row_length daily nTickers hw p0
            (by rw [hmp]; exact List.mem_cons_self p0 mprest)
        have hne : p0.2 ≠ [] := by
          intro hcon
          rw [hcon] at hlen0
          simp only [List.length_nil] at hlen0
          omega
        rw [hhead, seqCells_const_none p0.2 hne] at hvs
        exact Option.noConfusion hvs
      · rcases List.mem_iff_getElem?.mp htail with ⟨k, hk⟩
        rw [getElem?_zipWith] at hk
        cases hprev : (p0 :: mprest)[k]? with
        | none => rw [hprev] at hk; exact Option.noConfusion hk
        | some prev =>
            rw [hprev] at hk
            cases hcur : (p0 :: mprest).tail[k]? with
            | none => rw [hcur] at hk; exact Option.noConfusion hk
            | some cur =>
                rw [hcur] at hk
                have hg : (cur.1,
                    List.zipWith (fun a b => some (b / a - 1)) prev.2 cur.2)
                      = prow := by simpa using hk
                subst hg
                rw [zipWith_some_eq_map (fun a b => b / a - 1),
                  seqCells_map_some] at hvs
                have hvseq := Option.some_inj.mp hvs
                subst hvseq
                have hcur1 : (p0 :: mprest)[k + 1]? = some cur := by
                  rw [← getElem?_tail]
                  exact hcur
                have hlenprev : prev.2.length = nTickers :=
                  resampleLast_row_length daily nTickers hw prev
                    (by rw [hmp]; exact List.getElem?_mem hprev)
                have hlencur : cur.2.length = nTickers :=
                  resampleLast_row_length daily nTickers hw cur
                    (by rw [hmp]; exact List.getElem?_mem hcur1)
                refine ⟨hjlt, k, prev.1, prev.2, cur.1, cur.2, F,
                  ?_, ?_, rfl, hlookraw, ?_, rfl, rfl, rfl, rfl⟩
                · exact hprev
                · exact hcur1
                · show (List.zipWith (fun a b => b / a - 1)
                      prev.2 cur.2).getD j 0 - (divFactor F).rf
                        = cur.2.getD j 0 / prev.2.getD j 0 - 1 - F.rf / 100
                  rw [getD_zipWith_of_lt _ _ _ j (by omega) (by omega)]
                  rfl

/-- Witness for C4 at the concrete one-ticker request: months `0, 1` with
month-end prices `10, 20` and one raw factor month. -/
theorem C4_merged_rows_correct_witness :
    (∀ r ∈ daily1, r.2.length = 1)
      ∧ ∀ row ∈ build_merged 1 daily1 raw1,
          row.ticker < 1
            ∧ ∃ (k mPrev : ℕ) (psPrev : List ℚ) (mCur : ℕ) (psCur : List ℚ)
                (F : FactorRow),
                (resampleLast daily1)[k]? = some (mPrev, psPrev)
                ∧ (resampleLast daily1)[k + 1]? = some (mCur, psCur)
                ∧ row.month = mCur
                ∧ raw1.lookup mCur = some F
                ∧ row.excessReturn
                    = psCur.getD row.ticker 0 / psPrev.getD row.ticker 0 - 1
                      - F.rf / 100
                ∧ row.mktMinusRF = F.mktMinusRF / 100
                ∧ row.smb = F.smb / 100
                ∧ row.hml = F.hml / 100
                ∧ row.rf = F.rf / 100 := by
  have hw : ∀ r ∈ daily1, r.2.length = 1 := by
    intro r hr
    rcases List.mem_cons.mp hr with h | h
    · subst h; rfl
    · rw [List.mem_singleton.mp h]; rfl
  exact ⟨hw, C4_merged_rows_correct 1 daily1 raw1 hw⟩

end PortfolioApp
